import Mathlib

/-!
Verification of the embedded BK-tree engine (`src/lib.rs`): the data model
(`Node` with a fixed 15-slot children array indexed by edit distance), the
insertion algorithm (`write::Node::add`, `write::write_bktree`), the bounded
candidate search (`read::Node::canidates`, with its `u8` window arithmetic
modeled as arithmetic mod 256), and the explicit-stack depth-first iterator
(`read::NodeIterator::next`).

The edit-distance metric itself is an external primitive (the `levenshtein`
crate); general theorems are parameterized over an arbitrary metric
`d : α → α → Nat`, and concrete instances use Mathlib's `levenshtein` with the
default unit-cost structure, which is the same standard Levenshtein distance.

The children array `[Option<Box<Node>>; 15]` is encoded as the inductive
`Children`, a list of optional child nodes built with `nil` / `consNone`
(an empty slot) / `consSome` (an occupied slot); the mutual inductive
encoding (rather than `List (Option (Node α))`) keeps every definition
structurally recursive, so all of them evaluate by `rfl`/`decide`.
-/

set_option maxHeartbeats 1000000

/-- Length of the children array in `Node` (`const CHILDREN_LENGTH: usize = 15`). -/
def CHILDREN_LENGTH : Nat := 15

/-- The configured root word (`const ROOT_WORD: &str = "the"`). -/
def ROOT_WORD : String := "the"

mutual
/-- A BK-tree node: a word plus the fixed array of optional children, where an
occupied slot `i` is meant to hold a child at edit distance `i` from `word`.
This one Lean type plays the role of both `write::Node` (owned boxes) and
`read::Node` (static references), which have identical structure. -/
inductive Node (α : Type) : Type where
  | mk (word : α) (children : Children α)

/-- The children array of a node: a fixed-length sequence of slots, each
empty (`consNone`) or holding a child node (`consSome`). -/
inductive Children (α : Type) : Type where
  | nil : Children α
  | consNone (rest : Children α) : Children α
  | consSome (child : Node α) (rest : Children α) : Children α
end

/-- The word stored at a node. -/
def Node.word {α : Type} : Node α → α
  | .mk w _ => w

/-- The children array of a node. -/
def Node.children {α : Type} : Node α → Children α
  | .mk _ cs => cs

/-- Number of slots in a children array (15 for every array the code builds). -/
def Children.size {α : Type} : Children α → Nat
  | .nil => 0
  | .consNone r => r.size + 1
  | .consSome _ r => r.size + 1

/-- The content of slot `i`: `none` for an empty slot (or an out-of-range
index), `some c` for an occupied slot. -/
def Children.get {α : Type} : Children α → Nat → Option (Node α)
  | .nil, _ => none
  | .consNone _, 0 => none
  | .consSome c _, 0 => some c
  | .consNone r, i + 1 => r.get i
  | .consSome _ r, i + 1 => r.get i

/-- An all-empty children array of `n` slots. -/
def emptyChildren (α : Type) : Nat → Children α
  | 0 => .nil
  | n + 1 => .consNone (emptyChildren α n)

/-- `write::Node::new`: a leaf node with `CHILDREN_LENGTH` empty slots. -/
def Node.new {α : Type} (w : α) : Node α :=
  .mk w (emptyChildren α CHILDREN_LENGTH)

mutual
/-- `write::Node::add`: compute `diff = d(self.word, word)`; if
`diff < CHILDREN_LENGTH`, recurse into slot `diff` when occupied, otherwise
place a fresh leaf there; if `diff ≥ CHILDREN_LENGTH`, return the tree
unchanged (the word is dropped without any report). -/
def Node.add {α : Type} (d : α → α → Nat) : Node α → α → Node α
  | .mk selfWord cs, word =>
    let diff := d selfWord word
    if diff < CHILDREN_LENGTH then .mk selfWord (Children.addAt d cs diff word)
    else .mk selfWord cs

/-- Update of `children[diff]` inside `write::Node::add`: walk to slot `diff`
and either recurse into the occupant or install a new leaf. Indexing past the
end of the array leaves it unchanged (unreachable for the length-15 arrays the
code builds, since `diff < 15` is checked first). -/
def Children.addAt {α : Type} (d : α → α → Nat) : Children α → Nat → α → Children α
  | .nil, _, _ => .nil
  | .consNone r, 0, w => .consSome (Node.new w) r
  | .consSome c r, 0, w => .consSome (Node.add d c w) r
  | .consNone r, i + 1, w => .consNone (Children.addAt d r i w)
  | .consSome c r, i + 1, w => .consSome c (Children.addAt d r i w)
end

/-- Tail worker for `vecDedup`, remembering the last kept element. -/
def vecDedupAux {α : Type} [DecidableEq α] (prev : α) : List α → List α
  | [] => []
  | b :: t => if prev = b then vecDedupAux prev t else b :: vecDedupAux b t

/-- Rust's `Vec::dedup`: remove *consecutive* repeated elements, keeping the
first element of each run. Non-adjacent duplicates survive. -/
def vecDedup {α : Type} [DecidableEq α] : List α → List α
  | [] => []
  | a :: t => a :: vecDedupAux a t

/-- `write::write_bktree`, minus the out-of-scope file output: locate the first
occurrence of the root word (`position` + `expect`, modeled as `none` when the
root word is absent — the code panics there), remove it (`Vec::remove`),
collapse consecutive duplicates (`Vec::dedup`), then insert every remaining
word in list order into a tree rooted at the root word. -/
def write_bktree {α : Type} [DecidableEq α] (d : α → α → Nat) (root : α)
    (word_list : List α) : Option (Node α) :=
  match word_list.findIdx? (fun x => x == root) with
  | none => none
  | some index =>
      some ((vecDedup (word_list.eraseIdx index)).foldl
        (fun t w => Node.add d t w) (Node.new root))

/-- The concrete metric for string instances: standard Levenshtein distance
(Mathlib's `levenshtein` with the all-ones cost structure), the same distance
the external `levenshtein` crate computes. -/
def levStr (a b : String) : Nat :=
  levenshtein Levenshtein.defaultCost a.toList b.toList

mutual
/-- `read::Node::canidates`: `distance = d(self.word, word) as u8` (hence
`% 256`), then the window bounds `min = distance - tolerance` and
`max = distance + tolerance` computed in `u8`; release-mode wrapping
subtraction/addition is modeled as arithmetic mod 256 (the checked, debug-mode
behavior is captured separately by `canidatesUnderflowB`). Children whose slot
index (`as u8`) falls inside `[min, max]` contribute their word and their own
recursive candidates, in ascending slot order. -/
def Node.canidates {α : Type} (d : α → α → Nat) : Node α → α → Nat → List α
  | .mk selfWord cs, word, tolerance =>
    let distance := d selfWord word % 256
    let tol := tolerance % 256
    let mn := (distance + 256 - tol) % 256
    let mx := (distance + tol) % 256
    canidatesC d word tolerance mn mx 0 cs

/-- The `enumerate`/`filter` loop inside `canidates`: slot `i` (compared as
`u8`, hence `% 256`) must lie in `[mn, mx]`; an occupied slot in the window
pushes the child's word and then appends the child's recursive candidates. -/
def canidatesC {α : Type} (d : α → α → Nat) (word : α) (tolerance mn mx : Nat) :
    Nat → Children α → List α
  | _, .nil => []
  | i, .consNone r => canidatesC d word tolerance mn mx (i + 1) r
  | i, .consSome c r =>
      (if mn ≤ i % 256 ∧ i % 256 ≤ mx then
        c.word :: Node.canidates d c word tolerance
      else []) ++ canidatesC d word tolerance mn mx (i + 1) r
end

mutual
/-- Modelled from the spec's words, for comparison with `Node.canidates`: the
search window `[max(0, D - tolerance), D + tolerance]` (Nat subtraction is
exactly `max (0, D - tolerance)`), no `u8` truncation anywhere; otherwise the
same traversal as the code. -/
def canidatesClamped {α : Type} (d : α → α → Nat) : Node α → α → Nat → List α
  | .mk selfWord cs, word, tolerance =>
    let distance := d selfWord word
    canidatesClampedC d word tolerance (distance - tolerance) (distance + tolerance) 0 cs

/-- Children loop of `canidatesClamped`. -/
def canidatesClampedC {α : Type} (d : α → α → Nat) (word : α) (tolerance mn mx : Nat) :
    Nat → Children α → List α
  | _, .nil => []
  | i, .consNone r => canidatesClampedC d word tolerance mn mx (i + 1) r
  | i, .consSome c r =>
      (if mn ≤ i ∧ i ≤ mx then
        c.word :: canidatesClamped d c word tolerance
      else []) ++ canidatesClampedC d word tolerance mn mx (i + 1) r
end

mutual
/-- Whether `canidates` run under checked (debug-build) `u8` arithmetic hits an
underflow (`distance < tolerance` at a visited node) or an overflow
(`distance + tolerance > 255`) — that is, whether a debug build panics on this
query. When the node's own window arithmetic is safe, recursion proceeds into
exactly the children the search visits. -/
def canidatesUnderflowB {α : Type} (d : α → α → Nat) : Node α → α → Nat → Bool
  | .mk selfWord cs, word, tolerance =>
    let distance := d selfWord word % 256
    let tol := tolerance % 256
    if distance < tol ∨ 255 < distance + tol then true
    else canidatesUnderflowC d word tolerance (distance - tol) (distance + tol) 0 cs

/-- Children loop of `canidatesUnderflowB`. -/
def canidatesUnderflowC {α : Type} (d : α → α → Nat) (word : α) (tolerance mn mx : Nat) :
    Nat → Children α → Bool
  | _, .nil => false
  | i, .consNone r => canidatesUnderflowC d word tolerance mn mx (i + 1) r
  | i, .consSome c r =>
      (if mn ≤ i ∧ i ≤ mx then canidatesUnderflowB d c word tolerance else false)
        || canidatesUnderflowC d word tolerance mn mx (i + 1) r
end

mutual
/-- Every word stored in the tree, in ascending-slot preorder: the node's own
word followed by the words of all descendants. -/
def wordsIn {α : Type} : Node α → List α
  | .mk w cs => w :: wordsInC cs

/-- Words stored in a children array. -/
def wordsInC {α : Type} : Children α → List α
  | .nil => []
  | .consNone r => wordsInC r
  | .consSome c r => wordsIn c ++ wordsInC r
end

mutual
/-- The distance-slot invariant, strengthened to full subtrees: every word in
the subtree hanging off slot `i` of a node is at distance exactly `i` from
that node's word (this is what repeated `add` produces, and it is the fact the
pruned search relies on). -/
def slotInvB {α : Type} (d : α → α → Nat) : Node α → Bool
  | .mk w cs => slotInvC d w 0 cs

/-- Children part of `slotInvB`; `i` is the index of the first slot of `cs`. -/
def slotInvC {α : Type} (d : α → α → Nat) (w : α) : Nat → Children α → Bool
  | _, .nil => true
  | i, .consNone r => slotInvC d w (i + 1) r
  | i, .consSome c r =>
      ((wordsIn c).all fun x => d w x == i) && slotInvB d c && slotInvC d w (i + 1) r
end

mutual
/-- Every node of the tree has a children array of exactly `CHILDREN_LENGTH`
slots (true of everything `Node.new`/`Node.add` build). -/
def len15B {α : Type} : Node α → Bool
  | .mk _ cs => (Children.size cs == CHILDREN_LENGTH) && len15C cs

/-- Children part of `len15B`. -/
def len15C {α : Type} : Children α → Bool
  | .nil => true
  | .consNone r => len15C r
  | .consSome c r => len15B c && len15C r
end

mutual
/-- At every node `v` of the tree, `tolerance ≤ d(v.word, q)` and
`d(v.word, q) + tolerance ≤ 255`: the condition under which the `u8` window
arithmetic of `canidates` neither underflows nor overflows anywhere. -/
def noWrapB {α : Type} (d : α → α → Nat) (q : α) (tol : Nat) : Node α → Bool
  | .mk w cs => (decide (tol ≤ d w q) && decide (d w q + tol ≤ 255)) && noWrapC d q tol cs

/-- Children part of `noWrapB`. -/
def noWrapC {α : Type} (d : α → α → Nat) (q : α) (tol : Nat) : Children α → Bool
  | .nil => true
  | .consNone r => noWrapC d q tol r
  | .consSome c r => noWrapB d q tol c && noWrapC d q tol r
end

mutual
/-- The claim C7 property exactly as stated: at every node, every occupied
child slot `i` holds a child whose word is at distance exactly `i` from the
node's word. -/
def immediateSlotsOkB {α : Type} (d : α → α → Nat) : Node α → Bool
  | .mk w cs => immediateSlotsOkC d w 0 cs

/-- Children part of `immediateSlotsOkB`. -/
def immediateSlotsOkC {α : Type} (d : α → α → Nat) (w : α) : Nat → Children α → Bool
  | _, .nil => true
  | i, .consNone r => immediateSlotsOkC d w (i + 1) r
  | i, .consSome c r =>
      (d w c.word == i) && immediateSlotsOkB d c && immediateSlotsOkC d w (i + 1) r
end

mutual
/-- Preorder traversal visiting child slots in ascending index order — the
order the spec declares canonical for the iterator. -/
def preAsc {α : Type} : Node α → List (Node α)
  | .mk w cs => .mk w cs :: preAscC cs

/-- Children part of `preAsc`. -/
def preAscC {α : Type} : Children α → List (Node α)
  | .nil => []
  | .consNone r => preAscC r
  | .consSome c r => preAsc c ++ preAscC r
end

mutual
/-- Preorder traversal visiting child slots in descending index order — the
order the iterator in the code actually produces. -/
def preDesc {α : Type} : Node α → List (Node α)
  | .mk w cs => .mk w cs :: preDescC cs

/-- Children part of `preDesc` (later slots first). -/
def preDescC {α : Type} : Children α → List (Node α)
  | .nil => []
  | .consNone r => preDescC r
  | .consSome c r => preDescC r ++ preDesc c
end

mutual
/-- Number of nodes in the tree. -/
def countNodes {α : Type} : Node α → Nat
  | .mk _ cs => 1 + countNodesC cs

/-- Number of nodes hanging off a children array. -/
def countNodesC {α : Type} : Children α → Nat
  | .nil => 0
  | .consNone r => countNodesC r
  | .consSome c r => countNodes c + countNodesC r
end

/-- Occupied children in ascending slot order. -/
def Children.somes {α : Type} : Children α → List (Node α)
  | .nil => []
  | .consNone r => r.somes
  | .consSome c r => c :: r.somes

/-- `children.iter().rev().filter(|n| n.is_some())` of the iterator: the
occupied children in descending slot order. -/
def revSomes {α : Type} (cs : Children α) : List (Node α) :=
  cs.somes.reverse

/-- `read::NodeIterator`: the explicit stack of (cursor, node) pairs plus the
`first` flag. The list's head is the top of the Rust `Vec` stack. -/
structure NodeIterator (α : Type) where
  stack : List (Nat × Node α)
  first : Bool

/-- Outcome of one `next()` call: a panic (`unwrap` on an empty stack or
empty-first access), `done it` for `None` with resulting state `it`, or
`yield n it` for `Some(n)` with resulting state `it`. -/
inductive StepRes (α : Type) where
  | panic : StepRes α
  | done (it : NodeIterator α) : StepRes α
  | yield (n : Node α) (it : NodeIterator α) : StepRes α

/-- `read::Node::iter`: a fresh iterator, stack `[(0, root)]`, `first = true`. -/
def Node.iter {α : Type} (t : Node α) : NodeIterator α :=
  ⟨[(0, t)], true⟩

/-- The ascending phase of the iterator loop: the exhausted top entry has been
popped; pop the next entry `(k, n)`, re-push it as `(k + 1, n)` and rerun the
loop body, i.e. look at `n`'s reversed-filtered children after skipping
`k + 1` of them; an empty stack returns `None` (state `⟨[], false⟩`). -/
def iterAscend {α : Type} : List (Nat × Node α) → StepRes α
  | [] => .done ⟨[], false⟩
  | (k, n) :: rest =>
    match (revSomes n.children).drop (k + 1) with
    | c :: _ => .yield c ⟨(0, c) :: (k + 1, n) :: rest, false⟩
    | [] => iterAscend rest

/-- The `loop` of `NodeIterator::next` when `first` is already false: with
top-of-stack `(k, n)`, scan `n`'s children reversed, filtered to the occupied
ones, skipping `k`; the first hit `c` is pushed as `(0, c)` and yielded
(the `enumerate` index of the first post-skip element is always 0); if none,
pop and ascend. An empty stack panics (`last().unwrap()`). -/
def iterLoop {α : Type} : List (Nat × Node α) → StepRes α
  | [] => .panic
  | (k, n) :: rest =>
    match (revSomes n.children).drop k with
    | c :: _ => .yield c ⟨(0, c) :: (k, n) :: rest, false⟩
    | [] => iterAscend rest

/-- `read::NodeIterator::next`: on the first call, return the bottom-of-stack
node (`stack.first().unwrap()`, a panic when the stack is empty) and clear the
flag; afterwards run the loop. -/
def NodeIterator.next {α : Type} (it : NodeIterator α) : StepRes α :=
  if it.first then
    match it.stack.getLast? with
    | none => .panic
    | some (_, n) => .yield n ⟨it.stack, false⟩
  else iterLoop it.stack

/-- The nodes produced by the first `fuel` calls to `next` (stopping early at
the first call that does not yield). -/
def iterTake {α : Type} : Nat → NodeIterator α → List (Node α)
  | 0, _ => []
  | fuel + 1, it =>
    match it.next with
    | .yield c it2 => c :: iterTake fuel it2
    | _ => []

/-- The outcome of call number `fuel` (0-based) on the iterator: step through
`fuel` calls (carrying the state both after a yield and after a `None`) and
return the result of the next call; once the iterator has panicked every later
call is a panic too. -/
def callAt {α : Type} : Nat → NodeIterator α → StepRes α
  | 0, it => it.next
  | fuel + 1, it =>
    match it.next with
    | .yield _ it2 => callAt fuel it2
    | .done it2 => callAt fuel it2
    | .panic => .panic

/-- Nodes that entries below the top of the stack still owe the traversal:
for such an entry `(k, n)`, child number `k` (in descending-slot order) is the
subtree currently being walked above it, so the subtrees after position `k`
remain. -/
def remOutB {α : Type} : List (Nat × Node α) → List (Node α)
  | [] => []
  | (k, n) :: rest => ((revSomes n.children).drop (k + 1)).flatMap preDesc ++ remOutB rest

/-- Nodes a running iterator (past its `first` call) still has to yield, given
its stack: the top entry `(k, n)` owes the subtrees of its children from
position `k` on, entries below owe theirs from position `cursor + 1` on. -/
def remOut {α : Type} : List (Nat × Node α) → List (Node α)
  | [] => []
  | (k, n) :: rest => ((revSomes n.children).drop k).flatMap preDesc ++ remOutB rest

/-- Full deduplication keeping first occurrences — the spec's "deduplicate
remaining entries (in the sense of exact equality)" reading under which *all*
exact duplicates are removed, adjacent or not. Modelled from the spec for
comparison with the `Vec::dedup` the code actually performs. -/
def dedupFull {α : Type} [DecidableEq α] : List α → List α
  | [] => []
  | a :: t => a :: dedupFull (t.filter (fun x => x != a))
termination_by l => l.length
decreasing_by
  simp only [List.length_cons]
  exact Nat.lt_succ_of_le (t.length_filter_le _)

/-- Discrete metric on `Fin 3`, used to instantiate witnesses whose theorem
hypothesizes symmetry and the triangle inequality (both decidable here). -/
def dFin (a b : Fin 3) : Nat :=
  if a = b then 0 else 1

/-- The tree `write_bktree dFin 0 [0, 1]` builds: root `0` with `1` in slot 1. -/
def TC1 : Node (Fin 3) :=
  .mk 0 (.consNone (.consSome (Node.new 1) (emptyChildren (Fin 3) 13)))

/-- The tree built from `["the", "them"]`: root `"the"`, `"them"` in slot 1. -/
def T2b : Node String :=
  .mk "the" (.consNone (.consSome (Node.new "them") (emptyChildren String 13)))

/-- The tree built from `["the", "he"]`: root `"the"`, `"he"` in slot 1. -/
def T3w : Node String :=
  .mk "the" (.consNone (.consSome (Node.new "he") (emptyChildren String 13)))

/-- The tree built from `["the", "the"]`: the surviving second copy of the
root word lands in slot 0 under the root. -/
def T6 : Node String :=
  .mk "the" (.consSome (Node.new "the") (emptyChildren String 14))

/-- The tree built from `["the", "ab"]`: `"ab"` is at distance 3 from the
root word, so it lands in slot 3. -/
def T6w : Node String :=
  .mk "the" (.consNone (.consNone (.consNone (.consSome (Node.new "ab")
    (emptyChildren String 11)))))

/-- The tree built from `["the", "he"]` (C7's witness copy). -/
def T7w : Node String :=
  .mk "the" (.consNone (.consSome (Node.new "he") (emptyChildren String 13)))

/-- A two-child tree for the iterator-order counterexample: children `"a"`
(slot 0) and `"b"` (slot 1) under root `"r"`. -/
def T8 : Node String :=
  .mk "r" (.consSome (Node.new "a") (.consSome (Node.new "b") (emptyChildren String 13)))

/-- A bare root node, for the post-exhaustion counterexample. -/
def T9 : Node String :=
  Node.new "the"

/-- A one-child tree for the candidates-subset witness. -/
def T10 : Node String :=
  .mk "r" (.consNone (.consSome (Node.new "b") (emptyChildren String 13)))

mutual
/-- Simultaneous structural induction over nodes and children arrays. -/
def nodeInd {α : Type} {P : Node α → Prop} {Q : Children α → Prop}
    (h1 : ∀ w cs, Q cs → P (.mk w cs)) (h2 : Q .nil)
    (h3 : ∀ r, Q r → Q (.consNone r))
    (h4 : ∀ c r, P c → Q r → Q (.consSome c r)) : ∀ t, P t
  | .mk w cs => h1 w cs (childrenInd h1 h2 h3 h4 cs)

/-- Children half of `nodeInd`. -/
def childrenInd {α : Type} {P : Node α → Prop} {Q : Children α → Prop}
    (h1 : ∀ w cs, Q cs → P (.mk w cs)) (h2 : Q .nil)
    (h3 : ∀ r, Q r → Q (.consNone r))
    (h4 : ∀ c r, P c → Q r → Q (.consSome c r)) : ∀ cs, Q cs
  | .nil => h2
  | .consNone r => h3 r (childrenInd h1 h2 h3 h4 r)
  | .consSome c r => h4 c r (nodeInd h1 h2 h3 h4 c) (childrenInd h1 h2 h3 h4 r)
end

/-- Structural induction over a children array alone, with no induction
hypothesis for the child nodes. -/
def childrenIndSimple {α : Type} {Q : Children α → Prop}
    (h2 : Q .nil) (h3 : ∀ r, Q r → Q (.consNone r))
    (h4 : ∀ c r, Q r → Q (.consSome c r)) : ∀ cs, Q cs
  | .nil => h2
  | .consNone r => h3 r (childrenIndSimple h2 h3 h4 r)
  | .consSome c r => h4 c r (childrenIndSimple h2 h3 h4 r)

theorem get_emptyChildren {α : Type} : ∀ n i, (emptyChildren α n).get i = none := by
  intro n
  induction n with
  | zero => intro i; rfl
  | succ n ih =>
    intro i
    cases i with
    | zero => rfl
    | succ i => exact ih i

theorem size_emptyChildren {α : Type} : ∀ n, (emptyChildren α n).size = n := by
  intro n
  induction n with
  | zero => rfl
  | succ n ih => simp [emptyChildren, Children.size, ih]

theorem get_lt_size {α : Type} : ∀ cs : Children α, ∀ i c, cs.get i = some c → i < cs.size := by
  intro cs
  induction cs using childrenIndSimple with
  | h2 => intro i c h; simp [Children.get] at h
  | h3 r ih =>
    intro i c h
    cases i with
    | zero => simp [Children.get] at h
    | succ i =>
      have := ih i c h
      simp [Children.size]; omega
  | h4 c' r ih =>
    intro i c h
    cases i with
    | zero => simp [Children.size]
    | succ i =>
      have := ih i c h
      simp [Children.size]; omega

theorem size_addAt {α : Type} (d : α → α → Nat) :
    ∀ cs : Children α, ∀ i w, (Children.addAt d cs i w).size = cs.size := by
  intro cs
  induction cs using childrenIndSimple with
  | h2 => intro i w; rfl
  | h3 r ih =>
    intro i w
    cases i with
    | zero => simp [Children.addAt, Children.size]
    | succ i => simp [Children.addAt, Children.size, ih]
  | h4 c r ih =>
    intro i w
    cases i with
    | zero => simp [Children.addAt, Children.size]
    | succ i => simp [Children.addAt, Children.size, ih]

theorem get_addAt_ne {α : Type} (d : α → α → Nat) :
    ∀ cs : Children α, ∀ i w j, j ≠ i → (Children.addAt d cs i w).get j = cs.get j := by
  intro cs
  induction cs using childrenIndSimple with
  | h2 => intro i w j _; rfl
  | h3 r ih =>
    intro i w j hne
    cases i with
    | zero =>
      cases j with
      | zero => exact absurd rfl hne
      | succ j => simp [Children.addAt, Children.get]
    | succ i =>
      cases j with
      | zero => simp [Children.addAt, Children.get]
      | succ j => simpa [Children.addAt, Children.get] using ih i w j (by omega)
  | h4 c r ih =>
    intro i w j hne
    cases i with
    | zero =>
      cases j with
      | zero => exact absurd rfl hne
      | succ j => simp [Children.addAt, Children.get]
    | succ i =>
      cases j with
      | zero => simp [Children.addAt, Children.get]
      | succ j => simpa [Children.addAt, Children.get] using ih i w j (by omega)

theorem get_addAt_of_some {α : Type} (d : α → α → Nat) :
    ∀ cs : Children α, ∀ i w c, cs.get i = some c →
      (Children.addAt d cs i w).get i = some (Node.add d c w) := by
  intro cs
  induction cs using childrenIndSimple with
  | h2 => intro i w c h; simp [Children.get] at h
  | h3 r ih =>
    intro i w c h
    cases i with
    | zero => simp [Children.get] at h
    | succ i => simpa [Children.addAt, Children.get] using ih i w c h
  | h4 c' r ih =>
    intro i w c h
    cases i with
    | zero =>
      simp [Children.get] at h
      subst h
      simp [Children.addAt, Children.get]
    | succ i => simpa [Children.addAt, Children.get] using ih i w c h

theorem get_addAt_of_none {α : Type} (d : α → α → Nat) :
    ∀ cs : Children α, ∀ i w, cs.get i = none → i < cs.size →
      (Children.addAt d cs i w).get i = some (Node.new w) := by
  intro cs
  induction cs using childrenIndSimple with
  | h2 => intro i w _ hlt; simp [Children.size] at hlt
  | h3 r ih =>
    intro i w h hlt
    cases i with
    | zero => simp [Children.addAt, Children.get]
    | succ i =>
      simp [Children.size] at hlt
      simpa [Children.addAt, Children.get] using ih i w h (by omega)
  | h4 c r ih =>
    intro i w h hlt
    cases i with
    | zero => simp [Children.get] at h
    | succ i =>
      simp [Children.size] at hlt
      simpa [Children.addAt, Children.get] using ih i w h (by omega)

theorem mem_wordsInC_iff {α : Type} :
    ∀ cs : Children α, ∀ x, x ∈ wordsInC cs ↔ ∃ j c, cs.get j = some c ∧ x ∈ wordsIn c := by
  intro cs
  induction cs using childrenIndSimple with
  | h2 =>
    intro x
    simp only [wordsInC, List.not_mem_nil, false_iff]
    rintro ⟨j, c, h, _⟩
    simp [Children.get] at h
  | h3 r ih =>
    intro x
    simp only [wordsInC]
    rw [ih x]
    constructor
    · rintro ⟨j, c, h, hx⟩
      exact ⟨j + 1, c, by simpa [Children.get] using h, hx⟩
    · rintro ⟨j, c, h, hx⟩
      cases j with
      | zero => simp [Children.get] at h
      | succ j => exact ⟨j, c, by simpa [Children.get] using h, hx⟩
  | h4 c' r ih =>
    intro x
    simp only [wordsInC, List.mem_append]
    constructor
    · rintro (hx | hx)
      · exact ⟨0, c', rfl, hx⟩
      · obtain ⟨j, c, h, hx⟩ := (ih x).mp hx
        exact ⟨j + 1, c, by simpa [Children.get] using h, hx⟩
    · rintro ⟨j, c, h, hx⟩
      cases j with
      | zero =>
        simp [Children.get] at h
        subst h
        exact Or.inl hx
      | succ j =>
        exact Or.inr ((ih x).mpr ⟨j, c, by simpa [Children.get] using h, hx⟩)

theorem slotInvC_iff {α : Type} (d : α → α → Nat) (w : α) :
    ∀ cs : Children α, ∀ i0, slotInvC d w i0 cs = true ↔
      ∀ j c, cs.get j = some c →
        (∀ x ∈ wordsIn c, d w x = i0 + j) ∧ slotInvB d c = true := by
  intro cs
  induction cs using childrenIndSimple with
  | h2 =>
    intro i0
    simp only [slotInvC, true_iff]
    intro j c h
    simp [Children.get] at h
  | h3 r ih =>
    intro i0
    simp only [slotInvC]
    rw [ih (i0 + 1)]
    constructor
    · intro h j c hg
      cases j with
      | zero => simp [Children.get] at hg
      | succ j =>
        have := h j c (by simpa [Children.get] using hg)
        constructor
        · intro x hx
          have := this.1 x hx
          omega
        · exact this.2
    · intro h j c hg
      have := h (j + 1) c (by simpa [Children.get] using hg)
      constructor
      · intro x hx
        have := this.1 x hx
        omega
      · exact this.2
  | h4 c' r ih =>
    intro i0
    simp only [slotInvC, Bool.and_eq_true, List.all_eq_true, beq_iff_eq]
    rw [ih (i0 + 1)]
    constructor
    · rintro ⟨⟨hall, hinv⟩, h⟩ j c hg
      cases j with
      | zero =>
        simp [Children.get] at hg
        subst hg
        exact ⟨fun x hx => by have := hall x hx; omega, hinv⟩
      | succ j =>
        have := h j c (by simpa [Children.get] using hg)
        exact ⟨fun x hx => by have := this.1 x hx; omega, this.2⟩
    · intro h
      refine ⟨⟨fun x hx => ?_, (h 0 c' rfl).2⟩, ?_⟩
      · have := (h 0 c' rfl).1 x hx
        omega
      · intro j c hg
        have := h (j + 1) c (by simpa [Children.get] using hg)
        exact ⟨fun x hx => by have := this.1 x hx; omega, this.2⟩

theorem addAt_out_of_range {α : Type} (d : α → α → Nat) :
    ∀ cs : Children α, ∀ i w, cs.size ≤ i → Children.addAt d cs i w = cs := by
  intro cs
  induction cs using childrenIndSimple with
  | h2 => intro i w _; rfl
  | h3 r ih =>
    intro i w hle
    cases i with
    | zero => simp [Children.size] at hle
    | succ i =>
      simp [Children.size] at hle
      simp [Children.addAt, ih i w hle]
  | h4 c r ih =>
    intro i w hle
    cases i with
    | zero => simp [Children.size] at hle
    | succ i =>
      simp [Children.size] at hle
      simp [Children.addAt, ih i w hle]

theorem wordsInC_emptyChildren {α : Type} : ∀ n, wordsInC (emptyChildren α n) = [] := by
  intro n
  induction n with
  | zero => rfl
  | succ n ih => simpa [emptyChildren, wordsInC] using ih

theorem wordsIn_new {α : Type} (w : α) : wordsIn (Node.new w) = [w] := by
  simp [Node.new, wordsIn, wordsInC_emptyChildren]

theorem len15C_emptyChildren {α : Type} : ∀ n, len15C (emptyChildren α n) = true := by
  intro n
  induction n with
  | zero => rfl
  | succ n ih => simpa [emptyChildren, len15C] using ih

theorem len15B_new {α : Type} (w : α) : len15B (Node.new w) = true := by
  simp [Node.new, len15B, size_emptyChildren, len15C_emptyChildren, CHILDREN_LENGTH]

theorem slotInvC_emptyChildren {α : Type} (d : α → α → Nat) (w : α) :
    ∀ n i0, slotInvC d w i0 (emptyChildren α n) = true := by
  intro n
  induction n with
  | zero => intro i0; rfl
  | succ n ih => intro i0; simpa [emptyChildren, slotInvC] using ih (i0 + 1)

theorem slotInvB_new {α : Type} (d : α → α → Nat) (w : α) :
    slotInvB d (Node.new w) = true := by
  simp [Node.new, slotInvB, slotInvC_emptyChildren]

theorem len15B_add {α : Type} (d : α → α → Nat) :
    ∀ t : Node α, ∀ w, len15B t = true → len15B (Node.add d t w) = true := by
  intro t
  refine @nodeInd α
    (fun t => ∀ w, len15B t = true → len15B (Node.add d t w) = true)
    (fun cs => ∀ i w, len15C cs = true → len15C (Children.addAt d cs i w) = true)
    ?_ ?_ ?_ ?_ t
  · intro w0 cs ih w hlen
    simp only [len15B, Bool.and_eq_true, beq_iff_eq] at hlen
    by_cases hd : d w0 w < CHILDREN_LENGTH
    · simp only [Node.add, hd, if_pos]
      simp [len15B, size_addAt, hlen.1, ih _ _ hlen.2]
    · simp only [Node.add, hd, if_neg, not_false_iff]
      simp [len15B, hlen.1, hlen.2]
  · intro i w _; rfl
  · intro r ih i w hlen
    simp only [len15C] at hlen
    cases i with
    | zero => simp [Children.addAt, len15C, len15B_new, hlen]
    | succ i => simp [Children.addAt, len15C, ih i w hlen]
  · intro c r ihc ihr i w hlen
    simp only [len15C, Bool.and_eq_true] at hlen
    cases i with
    | zero => simp [Children.addAt, len15C, ihc w hlen.1, hlen.2]
    | succ i => simp [Children.addAt, len15C, hlen.1, ihr i w hlen.2]

theorem wordsIn_add_mem {α : Type} (d : α → α → Nat) :
    ∀ t : Node α, ∀ w x, x ∈ wordsIn (Node.add d t w) → x ∈ wordsIn t ∨ x = w := by
  intro t
  refine @nodeInd α
    (fun t => ∀ w x, x ∈ wordsIn (Node.add d t w) → x ∈ wordsIn t ∨ x = w)
    (fun cs => ∀ i w x, x ∈ wordsInC (Children.addAt d cs i w) → x ∈ wordsInC cs ∨ x = w)
    ?_ ?_ ?_ ?_ t
  · intro w0 cs ih w x hx
    by_cases hd : d w0 w < CHILDREN_LENGTH
    · simp only [Node.add, hd, if_pos, wordsIn, List.mem_cons] at hx
      rcases hx with hx | hx
      · exact Or.inl (by simp [wordsIn, hx])
      · rcases ih _ _ _ hx with h | h
        · exact Or.inl (by simp [wordsIn, h])
        · exact Or.inr h
    · simp only [Node.add, hd, if_neg, not_false_iff] at hx
      exact Or.inl hx
  · intro i w x hx
    simp [Children.addAt, wordsInC] at hx
  · intro r ih i w x hx
    cases i with
    | zero =>
      simp only [Children.addAt, wordsInC, List.mem_append, wordsIn_new,
        List.mem_singleton] at hx
      rcases hx with hx | hx
      · exact Or.inr hx
      · exact Or.inl hx
    | succ i =>
      simp only [Children.addAt, wordsInC] at hx
      exact ih i w x hx
  · intro c r ihc ihr i w x hx
    cases i with
    | zero =>
      simp only [Children.addAt, wordsInC, List.mem_append] at hx
      rcases hx with hx | hx
      · rcases ihc w x hx with h | h
        · exact Or.inl (by simp [wordsInC, h])
        · exact Or.inr h
      · exact Or.inl (by simp [wordsInC, hx])
    | succ i =>
      simp only [Children.addAt, wordsInC, List.mem_append] at hx
      rcases hx with hx | hx
      · exact Or.inl (by simp [wordsInC, hx])
      · rcases ihr i w x hx with h | h
        · exact Or.inl (by simp [wordsInC, h])
        · exact Or.inr h

theorem slotInvB_add {α : Type} (d : α → α → Nat) :
    ∀ t : Node α, ∀ w, slotInvB d t = true → slotInvB d (Node.add d t w) = true := by
  intro t
  refine @nodeInd α
    (fun t => ∀ w, slotInvB d t = true → slotInvB d (Node.add d t w) = true)
    (fun cs => ∀ j c, cs.get j = some c →
      ∀ w, slotInvB d c = true → slotInvB d (Node.add d c w) = true)
    ?_ ?_ ?_ ?_ t
  · intro w0 cs ih w hinv
    simp only [slotInvB] at hinv
    by_cases hd : d w0 w < CHILDREN_LENGTH
    · simp only [Node.add, hd, if_pos, slotInvB]
      rw [slotInvC_iff]
      intro j c hg
      by_cases hj : j = d w0 w
      · subst hj
        cases hcs : cs.get (d w0 w) with
        | some c0 =>
          rw [get_addAt_of_some d cs (d w0 w) w c0 hcs] at hg
          injection hg with hg
          subst hg
          have hold := (slotInvC_iff d w0 cs 0).mp hinv (d w0 w) c0 hcs
          refine ⟨?_, ih (d w0 w) c0 hcs w hold.2⟩
          intro x hx
          rcases wordsIn_add_mem d c0 w x hx with h | h
          · exact hold.1 x h
          · rw [h]; omega
        | none =>
          by_cases hr : d w0 w < cs.size
          · rw [get_addAt_of_none d cs (d w0 w) w hcs hr] at hg
            injection hg with hg
            subst hg
            refine ⟨?_, slotInvB_new d w⟩
            intro x hx
            rw [wordsIn_new] at hx
            simp at hx
            rw [hx]; omega
          · rw [addAt_out_of_range d cs (d w0 w) w (by omega)] at hg
            rw [hcs] at hg
            exact absurd hg (by simp)
      · rw [get_addAt_ne d cs (d w0 w) w j hj] at hg
        exact (slotInvC_iff d w0 cs 0).mp hinv j c hg
    · simpa [Node.add, hd, slotInvB] using hinv
  · intro j c hg
    simp [Children.get] at hg
  · intro r ih j c hg
    cases j with
    | zero => simp [Children.get] at hg
    | succ j => exact ih j c (by simpa [Children.get] using hg)
  · intro c' r ihc ihr j c hg
    cases j with
    | zero =>
      simp [Children.get] at hg
      subst hg
      exact ihc
    | succ j => exact ihr j c (by simpa [Children.get] using hg)

theorem len15B_foldl {α : Type} (d : α → α → Nat) :
    ∀ l : List α, ∀ t : Node α, len15B t = true →
      len15B (l.foldl (fun t w => Node.add d t w) t) = true := by
  intro l
  induction l with
  | nil => intro t h; simpa using h
  | cons a l ih =>
    intro t h
    simpa using ih (Node.add d t a) (len15B_add d t a h)

theorem slotInvB_foldl {α : Type} (d : α → α → Nat) :
    ∀ l : List α, ∀ t : Node α, slotInvB d t = true →
      slotInvB d (l.foldl (fun t w => Node.add d t w) t) = true := by
  intro l
  induction l with
  | nil => intro t h; simpa using h
  | cons a l ih =>
    intro t h
    simpa using ih (Node.add d t a) (slotInvB_add d t a h)

theorem write_bktree_inv {α : Type} [DecidableEq α] (d : α → α → Nat) (root : α)
    (l : List α) (t : Node α) (h : write_bktree d root l = some t) :
    slotInvB d t = true ∧ len15B t = true := by
  unfold write_bktree at h
  cases hf : l.findIdx? (fun x => x == root) with
  | none => rw [hf] at h; simp at h
  | some i =>
    rw [hf] at h
    simp only [Option.some.injEq] at h
    subst h
    exact ⟨slotInvB_foldl d _ _ (slotInvB_new d root),
      len15B_foldl d _ _ (len15B_new root)⟩

theorem canidates_mk {α : Type} (d : α → α → Nat) (w0 : α) (cs : Children α) (q : α)
    (tol : Nat) :
    Node.canidates d (.mk w0 cs) q tol =
      canidatesC d q tol ((d w0 q % 256 + 256 - tol % 256) % 256)
        ((d w0 q % 256 + tol % 256) % 256) 0 cs := rfl

theorem word_mem_wordsIn {α : Type} : ∀ t : Node α, t.word ∈ wordsIn t := by
  intro t
  cases t with
  | mk w cs => simp [Node.word, wordsIn]

theorem len15C_get {α : Type} :
    ∀ cs : Children α, len15C cs = true → ∀ j c, cs.get j = some c → len15B c = true := by
  intro cs
  induction cs using childrenIndSimple with
  | h2 => intro _ j c h; simp [Children.get] at h
  | h3 r ih =>
    intro hlen j c h
    cases j with
    | zero => simp [Children.get] at h
    | succ j => exact ih (by simpa [len15C] using hlen) j c (by simpa [Children.get] using h)
  | h4 c' r ih =>
    intro hlen j c h
    simp only [len15C, Bool.and_eq_true] at hlen
    cases j with
    | zero =>
      simp [Children.get] at h
      subst h
      exact hlen.1
    | succ j => exact ih hlen.2 j c (by simpa [Children.get] using h)

theorem noWrapC_get {α : Type} (d : α → α → Nat) (q : α) (tol : Nat) :
    ∀ cs : Children α, noWrapC d q tol cs = true →
      ∀ j c, cs.get j = some c → noWrapB d q tol c = true := by
  intro cs
  induction cs using childrenIndSimple with
  | h2 => intro _ j c h; simp [Children.get] at h
  | h3 r ih =>
    intro hnw j c h
    cases j with
    | zero => simp [Children.get] at h
    | succ j => exact ih (by simpa [noWrapC] using hnw) j c (by simpa [Children.get] using h)
  | h4 c' r ih =>
    intro hnw j c h
    simp only [noWrapC, Bool.and_eq_true] at hnw
    cases j with
    | zero =>
      simp [Children.get] at h
      subst h
      exact hnw.1
    | succ j => exact ih hnw.2 j c (by simpa [Children.get] using h)

theorem mem_canidatesC_word {α : Type} (d : α → α → Nat) (word : α) (tol mn mx : Nat) :
    ∀ cs : Children α, ∀ i0 j c, cs.get j = some c →
      mn ≤ (i0 + j) % 256 → (i0 + j) % 256 ≤ mx →
      c.word ∈ canidatesC d word tol mn mx i0 cs := by
  intro cs
  induction cs using childrenIndSimple with
  | h2 => intro i0 j c h _ _; simp [Children.get] at h
  | h3 r ih =>
    intro i0 j c h h1 h2
    cases j with
    | zero => simp [Children.get] at h
    | succ j =>
      simp only [canidatesC]
      exact ih (i0 + 1) j c (by simpa [Children.get] using h)
        (by omega) (by omega)
  | h4 c' r ih =>
    intro i0 j c h h1 h2
    cases j with
    | zero =>
      simp only [Children.get, Option.some.injEq] at h
      subst h
      simp only [canidatesC, List.mem_append]
      left
      rw [if_pos (by constructor <;> omega)]
      simp
    | succ j =>
      simp only [canidatesC, List.mem_append]
      right
      exact ih (i0 + 1) j c (by simpa [Children.get] using h) (by omega) (by omega)

theorem mem_canidatesC_sub {α : Type} (d : α → α → Nat) (word : α) (tol mn mx : Nat) :
    ∀ cs : Children α, ∀ i0 j c, cs.get j = some c →
      mn ≤ (i0 + j) % 256 → (i0 + j) % 256 ≤ mx →
      ∀ y, y ∈ Node.canidates d c word tol → y ∈ canidatesC d word tol mn mx i0 cs := by
  intro cs
  induction cs using childrenIndSimple with
  | h2 => intro i0 j c h _ _; simp [Children.get] at h
  | h3 r ih =>
    intro i0 j c h h1 h2 y hy
    cases j with
    | zero => simp [Children.get] at h
    | succ j =>
      simp only [canidatesC]
      exact ih (i0 + 1) j c (by simpa [Children.get] using h) (by omega) (by omega) y hy
  | h4 c' r ih =>
    intro i0 j c h h1 h2 y hy
    cases j with
    | zero =>
      simp only [Children.get, Option.some.injEq] at h
      subst h
      simp only [canidatesC, List.mem_append]
      left
      rw [if_pos (by constructor <;> omega)]
      simp [hy]
    | succ j =>
      simp only [canidatesC, List.mem_append]
      right
      exact ih (i0 + 1) j c (by simpa [Children.get] using h) (by omega) (by omega) y hy

theorem canidates_complete_noWrap {α : Type} (d : α → α → Nat)
    (hsym : ∀ a b, d a b = d b a) (htri : ∀ a b c, d a c ≤ d a b + d b c) :
    ∀ t : Node α, ∀ q w tol,
      slotInvB d t = true → len15B t = true → noWrapB d q tol t = true →
      w ∈ wordsInC t.children → d q w ≤ tol → w ∈ Node.canidates d t q tol := by
  intro t
  refine @nodeInd α
    (fun t => ∀ q w tol,
      slotInvB d t = true → len15B t = true → noWrapB d q tol t = true →
      w ∈ wordsInC t.children → d q w ≤ tol → w ∈ Node.canidates d t q tol)
    (fun cs => ∀ j c, cs.get j = some c →
      ∀ q w tol,
        slotInvB d c = true → len15B c = true → noWrapB d q tol c = true →
        w ∈ wordsInC c.children → d q w ≤ tol → w ∈ Node.canidates d c q tol)
    ?_ ?_ ?_ ?_ t
  · intro w0 cs ih q w tol hinv hlen hnw hw hd
    simp only [Node.children] at hw
    simp only [slotInvB] at hinv
    simp only [len15B, Bool.and_eq_true, beq_iff_eq] at hlen
    simp only [noWrapB, Bool.and_eq_true, decide_eq_true_eq] at hnw
    obtain ⟨⟨htl, hub⟩, hnwc⟩ := hnw
    obtain ⟨j, c, hg, hwc⟩ := (mem_wordsInC_iff cs w).mp hw
    have hji := (slotInvC_iff d w0 cs 0).mp hinv j c hg
    have hjw : d w0 w = j := by
      have := hji.1 w hwc
      omega
    have hjlt : j < 15 := by
      have := get_lt_size cs j c hg
      rw [hlen.1] at this
      simpa [CHILDREN_LENGTH] using this
    rw [canidates_mk]
    have hD : d w0 q % 256 = d w0 q := Nat.mod_eq_of_lt (by omega)
    have ht : tol % 256 = tol := Nat.mod_eq_of_lt (by omega)
    have hmn : (d w0 q % 256 + 256 - tol % 256) % 256 = d w0 q - tol := by
      rw [hD, ht]; omega
    have hmx : (d w0 q % 256 + tol % 256) % 256 = d w0 q + tol := by
      rw [hD, ht]; omega
    rw [hmn, hmx]
    have hwin1 : d w0 q - tol ≤ (0 + j) % 256 := by
      have h1 : d w0 q ≤ d w0 w + d w q := htri w0 w q
      have h2 : d w q = d q w := hsym w q
      omega
    have hwin2 : (0 + j) % 256 ≤ d w0 q + tol := by
      have h1 : d w0 w ≤ d w0 q + d q w := htri w0 q w
      omega
    by_cases hcw : w = c.word
    · rw [hcw]
      exact mem_canidatesC_word d q tol _ _ cs 0 j c hg hwin1 hwin2
    · have hwbelow : w ∈ wordsInC c.children := by
        cases c with
        | mk cw ccs =>
          simp only [wordsIn, List.mem_cons] at hwc
          rcases hwc with h | h
          · exact absurd (by simpa [Node.word] using h) hcw
          · simpa [Node.children] using h
      have hmem := ih j c hg q w tol hji.2
        (len15C_get cs hlen.2 j c hg) (noWrapC_get d q tol cs hnwc j c hg) hwbelow hd
      exact mem_canidatesC_sub d q tol _ _ cs 0 j c hg hwin1 hwin2 w hmem
  · intro j c hg
    simp [Children.get] at hg
  · intro r ih j c hg
    cases j with
    | zero => simp [Children.get] at hg
    | succ j => exact ih j c (by simpa [Children.get] using hg)
  · intro c' r ihc ihr j c hg
    cases j with
    | zero =>
      simp [Children.get] at hg
      subst hg
      exact ihc
    | succ j => exact ihr j c (by simpa [Children.get] using hg)

theorem canidates_complete_self {α : Type} (d : α → α → Nat) :
    ∀ t : Node α, ∀ w,
      slotInvB d t = true → len15B t = true →
      w ∈ wordsInC t.children → w ∈ Node.canidates d t w 0 := by
  intro t
  refine @nodeInd α
    (fun t => ∀ w,
      slotInvB d t = true → len15B t = true →
      w ∈ wordsInC t.children → w ∈ Node.canidates d t w 0)
    (fun cs => ∀ j c, cs.get j = some c →
      ∀ w,
        slotInvB d c = true → len15B c = true →
        w ∈ wordsInC c.children → w ∈ Node.canidates d c w 0)
    ?_ ?_ ?_ ?_ t
  · intro w0 cs ih w hinv hlen hw
    simp only [Node.children] at hw
    simp only [slotInvB] at hinv
    simp only [len15B, Bool.and_eq_true, beq_iff_eq] at hlen
    obtain ⟨j, c, hg, hwc⟩ := (mem_wordsInC_iff cs w).mp hw
    have hji := (slotInvC_iff d w0 cs 0).mp hinv j c hg
    have hjw : d w0 w = j := by
      have := hji.1 w hwc
      omega
    have hjlt : j < 15 := by
      have := get_lt_size cs j c hg
      rw [hlen.1] at this
      simpa [CHILDREN_LENGTH] using this
    rw [canidates_mk]
    have hD : d w0 w % 256 = j := by omega
    rw [hD]
    have hmn : (j + 256 - 0 % 256) % 256 = j := by omega
    have hmx : (j + 0 % 256) % 256 = j := by omega
    rw [hmn, hmx]
    have hwin1 : j ≤ (0 + j) % 256 := by omega
    have hwin2 : (0 + j) % 256 ≤ j := by omega
    by_cases hcw : w = c.word
    · have := mem_canidatesC_word d w 0 j j cs 0 j c hg hwin1 hwin2
      rwa [← hcw] at this
    · have hwbelow : w ∈ wordsInC c.children := by
        cases c with
        | mk cw ccs =>
          simp only [wordsIn, List.mem_cons] at hwc
          rcases hwc with h | h
          · exact absurd (by simpa [Node.word] using h) hcw
          · simpa [Node.children] using h
      have hmem := ih j c hg w hji.2 (len15C_get cs hlen.2 j c hg) hwbelow
      exact mem_canidatesC_sub d w 0 j j cs 0 j c hg hwin1 hwin2 w hmem
  · intro j c hg
    simp [Children.get] at hg
  · intro r ih j c hg
    cases j with
    | zero => simp [Children.get] at hg
    | succ j => exact ih j c (by simpa [Children.get] using hg)
  · intro c' r ihc ihr j c hg
    cases j with
    | zero =>
      simp [Children.get] at hg
      subst hg
      exact ihc
    | succ j => exact ihr j c (by simpa [Children.get] using hg)

theorem canidates_subset_aux {α : Type} (d : α → α → Nat) :
    ∀ t : Node α, ∀ q tol x, x ∈ Node.canidates d t q tol → x ∈ wordsIn t := by
  intro t
  refine @nodeInd α
    (fun t => ∀ q tol x, x ∈ Node.canidates d t q tol → x ∈ wordsIn t)
    (fun cs => ∀ q tol mn mx i0 x, x ∈ canidatesC d q tol mn mx i0 cs → x ∈ wordsInC cs)
    ?_ ?_ ?_ ?_ t
  · intro w0 cs ih q tol x hx
    rw [canidates_mk] at hx
    have := ih q tol _ _ 0 x hx
    simp [wordsIn, this]
  · intro q tol mn mx i0 x hx
    simp [canidatesC] at hx
  · intro r ih q tol mn mx i0 x hx
    simp only [canidatesC] at hx
    simpa [wordsInC] using ih q tol mn mx (i0 + 1) x hx
  · intro c r ihc ihr q tol mn mx i0 x hx
    simp only [canidatesC, List.mem_append] at hx
    simp only [wordsInC, List.mem_append]
    rcases hx with hx | hx
    · left
      split at hx
      · simp only [List.mem_cons] at hx
        rcases hx with hx | hx
        · rw [hx]; exact word_mem_wordsIn c
        · exact ihc q tol x hx
      · simp at hx
    · right
      exact ihr q tol mn mx (i0 + 1) x hx

theorem slotInv_imm {α : Type} (d : α → α → Nat) :
    ∀ t : Node α, slotInvB d t = true → immediateSlotsOkB d t = true := by
  intro t
  refine @nodeInd α
    (fun t => slotInvB d t = true → immediateSlotsOkB d t = true)
    (fun cs => ∀ w0 i0, slotInvC d w0 i0 cs = true → immediateSlotsOkC d w0 i0 cs = true)
    ?_ ?_ ?_ ?_ t
  · intro w cs ih hinv
    simp only [slotInvB] at hinv
    simp only [immediateSlotsOkB]
    exact ih w 0 hinv
  · intro w0 i0 _; rfl
  · intro r ih w0 i0 hinv
    simp only [slotInvC] at hinv
    simpa [immediateSlotsOkC] using ih w0 (i0 + 1) hinv
  · intro c r ihc ihr w0 i0 hinv
    simp only [slotInvC, Bool.and_eq_true, List.all_eq_true, beq_iff_eq] at hinv
    obtain ⟨⟨hall, hinvc⟩, hrest⟩ := hinv
    simp only [immediateSlotsOkC, Bool.and_eq_true, beq_iff_eq]
    exact ⟨⟨hall c.word (word_mem_wordsIn c), ihc hinvc⟩, ihr w0 (i0 + 1) hrest⟩

theorem preDescC_eq {α : Type} :
    ∀ cs : Children α, preDescC cs = (revSomes cs).flatMap preDesc := by
  intro cs
  induction cs using childrenIndSimple with
  | h2 => rfl
  | h3 r ih => simpa [preDescC, revSomes, Children.somes] using ih
  | h4 c r ih =>
    simp only [preDescC, ih]
    simp [revSomes, Children.somes, List.reverse_cons, List.flatMap_append]

theorem preDesc_unfold {α : Type} (t : Node α) :
    preDesc t = t :: preDescC t.children := by
  cases t with
  | mk w cs => rfl

theorem preDesc_length {α : Type} :
    ∀ t : Node α, (preDesc t).length = countNodes t := by
  intro t
  refine @nodeInd α
    (fun t => (preDesc t).length = countNodes t)
    (fun cs => (preDescC cs).length = countNodesC cs)
    ?_ ?_ ?_ ?_ t
  · intro w cs ih
    simp [preDesc, countNodes, ih]
    omega
  · rfl
  · intro r ih
    simpa [preDescC, countNodesC] using ih
  · intro c r ihc ihr
    simp [preDescC, countNodesC, ihc, ihr]
    omega

theorem iterAscend_spec {α : Type} :
    ∀ rest : List (Nat × Node α),
      (∀ c it, iterAscend rest = .yield c it →
        it.first = false ∧ it.stack ≠ [] ∧ remOutB rest = c :: remOut it.stack) ∧
      (∀ it, iterAscend rest = .done it → it = ⟨[], false⟩ ∧ remOutB rest = []) ∧
      iterAscend rest ≠ .panic := by
  intro rest
  induction rest with
  | nil =>
    refine ⟨?_, ?_, ?_⟩
    · intro c it h
      simp [iterAscend] at h
    · intro it h
      simp only [iterAscend, StepRes.done.injEq] at h
      exact ⟨h.symm, rfl⟩
    · simp [iterAscend]
  | cons p rest2 ih =>
    obtain ⟨k, n⟩ := p
    cases hdrop : (revSomes n.children).drop (k + 1) with
    | cons c tl =>
      have htl : List.drop (k + 1 + 1) (revSomes n.children) = tl := by
        have := List.tail_drop (revSomes n.children) (k + 1)
        rw [hdrop] at this
        simpa using this.symm
      refine ⟨?_, ?_, ?_⟩
      · intro c' it h
        simp only [iterAscend, hdrop] at h
        injection h with h1 h2
        subst h1
        subst h2
        refine ⟨rfl, by simp, ?_⟩
        simp only [remOutB, remOut, hdrop, List.flatMap_cons, List.drop_zero]
        rw [preDesc_unfold c, preDescC_eq, ← htl]
        simp
      · intro it h
        simp [iterAscend, hdrop] at h
      · simp [iterAscend, hdrop]
    | nil =>
      refine ⟨?_, ?_, ?_⟩
      · intro c' it h
        simp only [iterAscend, hdrop] at h
        have := ih.1 c' it h
        refine ⟨this.1, this.2.1, ?_⟩
        simp only [remOutB, hdrop, List.flatMap_nil, List.nil_append]
        exact this.2.2
      · intro it h
        simp only [iterAscend, hdrop] at h
        have := ih.2.1 it h
        refine ⟨this.1, ?_⟩
        simp only [remOutB, hdrop, List.flatMap_nil, List.nil_append]
        exact this.2
      · simpa [iterAscend, hdrop] using ih.2.2

theorem iterLoop_spec {α : Type} :
    ∀ s : List (Nat × Node α), s ≠ [] →
      (∀ c it, iterLoop s = .yield c it →
        it.first = false ∧ it.stack ≠ [] ∧ remOut s = c :: remOut it.stack) ∧
      (∀ it, iterLoop s = .done it → it = ⟨[], false⟩ ∧ remOut s = []) ∧
      iterLoop s ≠ .panic := by
  intro s hs
  cases s with
  | nil => exact absurd rfl hs
  | cons p rest =>
    obtain ⟨k, n⟩ := p
    cases hdrop : (revSomes n.children).drop k with
    | cons c tl =>
      have htl : List.drop (k + 1) (revSomes n.children) = tl := by
        have := List.tail_drop (revSomes n.children) k
        rw [hdrop] at this
        simpa using this.symm
      refine ⟨?_, ?_, ?_⟩
      · intro c' it h
        simp only [iterLoop, hdrop] at h
        injection h with h1 h2
        subst h1
        subst h2
        refine ⟨rfl, by simp, ?_⟩
        simp only [remOut, remOutB, hdrop, List.flatMap_cons, List.drop_zero]
        rw [preDesc_unfold c, preDescC_eq, ← htl]
        simp
      · intro it h
        simp [iterLoop, hdrop] at h
      · simp [iterLoop, hdrop]
    | nil =>
      have hasc := iterAscend_spec rest
      refine ⟨?_, ?_, ?_⟩
      · intro c' it h
        simp only [iterLoop, hdrop] at h
        have := hasc.1 c' it h
        refine ⟨this.1, this.2.1, ?_⟩
        simp only [remOut, hdrop, List.flatMap_nil, List.nil_append]
        exact this.2.2
      · intro it h
        simp only [iterLoop, hdrop] at h
        have := hasc.2.1 it h
        refine ⟨this.1, ?_⟩
        simp only [remOut, hdrop, List.flatMap_nil, List.nil_append]
        exact this.2
      · simpa [iterLoop, hdrop] using hasc.2.2

theorem next_false {α : Type} (s : List (Nat × Node α)) :
    NodeIterator.next ⟨s, false⟩ = iterLoop s := rfl

theorem iterTake_spec {α : Type} :
    ∀ fuel : Nat, ∀ s : List (Nat × Node α), s ≠ [] → (remOut s).length ≤ fuel →
      iterTake fuel ⟨s, false⟩ = remOut s := by
  intro fuel
  induction fuel with
  | zero =>
    intro s _ hlen
    have : remOut s = [] := List.length_eq_zero.mp (by omega)
    simp [iterTake, this]
  | succ fuel ih =>
    intro s hs hlen
    have hspec := iterLoop_spec s hs
    simp only [iterTake, next_false]
    cases h : iterLoop s with
    | panic => exact absurd h hspec.2.2
    | done it =>
      have := hspec.2.1 it h
      simp [this.2]
    | yield c it =>
      have := hspec.1 c it h
      obtain ⟨stk, fst⟩ := it
      simp only at this
      obtain ⟨hf, hne, hrem⟩ := this
      subst hf
      show c :: iterTake fuel ⟨stk, false⟩ = remOut s
      rw [ih stk hne (by rw [hrem] at hlen; simp at hlen; omega)]
      rw [hrem]

theorem callAt_spec {α : Type} :
    ∀ fuel : Nat, ∀ s : List (Nat × Node α), s ≠ [] → (remOut s).length = fuel →
      callAt fuel ⟨s, false⟩ = .done ⟨[], false⟩ := by
  intro fuel
  induction fuel with
  | zero =>
    intro s hs hlen
    have hspec := iterLoop_spec s hs
    simp only [callAt, next_false]
    cases h : iterLoop s with
    | panic => exact absurd h hspec.2.2
    | done it => rw [(hspec.2.1 it h).1]
    | yield c it =>
      have := hspec.1 c it h
      rw [this.2.2] at hlen
      simp at hlen
  | succ fuel ih =>
    intro s hs hlen
    have hspec := iterLoop_spec s hs
    simp only [callAt, next_false]
    cases h : iterLoop s with
    | panic => exact absurd h hspec.2.2
    | done it =>
      have := hspec.2.1 it h
      rw [this.2] at hlen
      simp at hlen
    | yield c it =>
      have := hspec.1 c it h
      obtain ⟨stk, fst⟩ := it
      simp only at this
      obtain ⟨hf, hne, hrem⟩ := this
      subst hf
      exact ih stk hne (by rw [hrem] at hlen; simpa using hlen)

theorem callAt_empty {α : Type} :
    ∀ k : Nat, callAt k (⟨[], false⟩ : NodeIterator α) = .panic := by
  intro k
  cases k with
  | zero => rfl
  | succ k => rfl

theorem callAt_after {α : Type} :
    ∀ fuel : Nat, ∀ s : List (Nat × Node α), ∀ k, s ≠ [] → (remOut s).length = fuel →
      callAt (fuel + k + 1) ⟨s, false⟩ = .panic := by
  intro fuel
  induction fuel with
  | zero =>
    intro s k hs hlen
    have hspec := iterLoop_spec s hs
    have hstep : (0 : Nat) + k + 1 = k + 1 := by omega
    rw [hstep]
    simp only [callAt, next_false]
    cases h : iterLoop s with
    | panic => exact absurd h hspec.2.2
    | done it =>
      rw [(hspec.2.1 it h).1]
      exact callAt_empty k
    | yield c it =>
      have := hspec.1 c it h
      rw [this.2.2] at hlen
      simp at hlen
  | succ fuel ih =>
    intro s k hs hlen
    have hspec := iterLoop_spec s hs
    have hstep : fuel + 1 + k + 1 = (fuel + k + 1) + 1 := by omega
    rw [hstep]
    simp only [callAt, next_false]
    cases h : iterLoop s with
    | panic => exact absurd h hspec.2.2
    | done it =>
      have := hspec.2.1 it h
      rw [this.2] at hlen
      simp at hlen
    | yield c it =>
      have := hspec.1 c it h
      obtain ⟨stk, fst⟩ := it
      simp only at this
      obtain ⟨hf, hne, hrem⟩ := this
      subst hf
      exact ih stk k hne (by rw [hrem] at hlen; simpa using hlen)

theorem next_iter {α : Type} (t : Node α) :
    NodeIterator.next (Node.iter t) = .yield t ⟨[(0, t)], false⟩ := rfl

theorem remOut_init {α : Type} (t : Node α) :
    remOut [(0, t)] = preDescC t.children := by
  simp only [remOut, remOutB, List.drop_zero, List.append_nil]
  exact (preDescC_eq t.children).symm

theorem countNodes_pos {α : Type} (t : Node α) : 1 ≤ countNodes t := by
  cases t with
  | mk w cs => simp [countNodes]

theorem iterTake_iter {α : Type} :
    ∀ t : Node α, ∀ fuel, countNodes t ≤ fuel →
      iterTake fuel (Node.iter t) = preDesc t := by
  intro t fuel hfuel
  have h1 := countNodes_pos t
  cases fuel with
  | zero => omega
  | succ fuel =>
    simp only [iterTake, next_iter]
    rw [iterTake_spec fuel [(0, t)] (by simp) ?_]
    · rw [remOut_init, preDesc_unfold]
    · rw [remOut_init]
      have := preDesc_length t
      rw [preDesc_unfold] at this
      simp at this
      omega

theorem callAt_iter_done {α : Type} :
    ∀ t : Node α, callAt (countNodes t) (Node.iter t) = .done ⟨[], false⟩ := by
  intro t
  have h1 := countNodes_pos t
  have hlen : (remOut [(0, t)]).length = countNodes t - 1 := by
    rw [remOut_init]
    have := preDesc_length t
    rw [preDesc_unfold] at this
    simp at this
    omega
  cases hN : countNodes t with
  | zero => omega
  | succ m =>
    simp only [callAt, next_iter]
    exact callAt_spec m [(0, t)] (by simp) (by rw [hlen, hN]; omega)

theorem callAt_iter_after {α : Type} :
    ∀ t : Node α, ∀ k, callAt (countNodes t + k + 1) (Node.iter t) = .panic := by
  intro t k
  have h1 := countNodes_pos t
  have hlen : (remOut [(0, t)]).length = countNodes t - 1 := by
    rw [remOut_init]
    have := preDesc_length t
    rw [preDesc_unfold] at this
    simp at this
    omega
  have hstep : countNodes t + k + 1 = ((countNodes t - 1) + k + 1) + 1 := by omega
  rw [hstep]
  simp only [callAt, next_iter]
  exact callAt_after (countNodes t - 1) [(0, t)] k (by simp) hlen

theorem count_wordsIn_add {α : Type} [DecidableEq α] (d : α → α → Nat) :
    ∀ t : Node α, ∀ w x, x ≠ w →
      (wordsIn (Node.add d t w)).count x = (wordsIn t).count x := by
  intro t
  refine @nodeInd α
    (fun t => ∀ w x, x ≠ w →
      (wordsIn (Node.add d t w)).count x = (wordsIn t).count x)
    (fun cs => ∀ i w x, x ≠ w →
      (wordsInC (Children.addAt d cs i w)).count x = (wordsInC cs).count x)
    ?_ ?_ ?_ ?_ t
  · intro w0 cs ih w x hx
    by_cases hd : d w0 w < CHILDREN_LENGTH
    · simp only [Node.add, hd, if_pos, wordsIn, List.count_cons]
      rw [ih (d w0 w) w x hx]
    · simp [Node.add, hd]
  · intro i w x _; rfl
  · intro r ih i w x hx
    cases i with
    | zero =>
      simp only [Children.addAt, wordsInC, List.count_append, wordsIn_new]
      have : [w].count x = 0 := List.count_eq_zero.mpr (by simpa using hx)
      rw [this]
      simp
    | succ i =>
      simp only [Children.addAt, wordsInC]
      exact ih i w x hx
  · intro c r ihc ihr i w x hx
    cases i with
    | zero =>
      simp only [Children.addAt, wordsInC, List.count_append]
      rw [ihc w x hx]
    | succ i =>
      simp only [Children.addAt, wordsInC, List.count_append]
      rw [ihr i w x hx]

theorem count_wordsIn_foldl {α : Type} [DecidableEq α] (d : α → α → Nat) :
    ∀ l : List α, ∀ t : Node α, ∀ x, (∀ w ∈ l, x ≠ w) →
      (wordsIn (l.foldl (fun t w => Node.add d t w) t)).count x = (wordsIn t).count x := by
  intro l
  induction l with
  | nil => intro t x _; rfl
  | cons a l ih =>
    intro t x hx
    simp only [List.foldl_cons]
    rw [ih (Node.add d t a) x (fun w hw => hx w (List.mem_cons_of_mem a hw))]
    exact count_wordsIn_add d t a x (hx a (List.mem_cons_self a l))

theorem mem_vecDedupAux {α : Type} [DecidableEq α] :
    ∀ l : List α, ∀ p x, x ∈ vecDedupAux p l → x ∈ l := by
  intro l
  induction l with
  | nil => intro p x h; simp [vecDedupAux] at h
  | cons b t ih =>
    intro p x h
    simp only [vecDedupAux] at h
    split at h
    · exact List.mem_cons_of_mem b (ih p x h)
    · simp only [List.mem_cons] at h
      rcases h with h | h
      · simp [h]
      · exact List.mem_cons_of_mem b (ih b x h)

theorem mem_vecDedup {α : Type} [DecidableEq α] :
    ∀ l : List α, ∀ x, x ∈ vecDedup l → x ∈ l := by
  intro l x h
  cases l with
  | nil => simp [vecDedup] at h
  | cons a t =>
    simp only [vecDedup, List.mem_cons] at h
    rcases h with h | h
    · simp [h]
    · exact List.mem_cons_of_mem a (mem_vecDedupAux t a x h)

theorem mem_vecDedupAux_of_mem {α : Type} [DecidableEq α] :
    ∀ l : List α, ∀ p x, x ∈ l → x = p ∨ x ∈ vecDedupAux p l := by
  intro l
  induction l with
  | nil => intro p x h; simp at h
  | cons b t ih =>
    intro p x h
    simp only [List.mem_cons] at h
    by_cases hpb : p = b
    · subst hpb
      simp only [vecDedupAux, if_pos rfl]
      rcases h with h | h
      · exact Or.inl h
      · exact ih p x h
    · simp only [vecDedupAux, if_neg hpb]
      rcases h with h | h
      · right; simp [h]
      · rcases ih b x h with h | h
        · right; simp [h]
        · right; exact List.mem_cons_of_mem b h

theorem mem_vecDedup_of_mem {α : Type} [DecidableEq α] :
    ∀ l : List α, ∀ x, x ∈ l → x ∈ vecDedup l := by
  intro l x h
  cases l with
  | nil => simp at h
  | cons a t =>
    simp only [List.mem_cons] at h
    simp only [vecDedup, List.mem_cons]
    rcases h with h | h
    · exact Or.inl h
    · rcases mem_vecDedupAux_of_mem t a x h with h | h
      · exact Or.inl h
      · exact Or.inr h

theorem findIdx_erase {α : Type} [DecidableEq α] (root : α) :
    ∀ l : List α, root ∈ l →
      ∃ i, l.findIdx? (fun x => x == root) = some i ∧ l.eraseIdx i = l.erase root := by
  intro l
  induction l with
  | nil => intro h; simp at h
  | cons a t ih =>
    intro h
    by_cases ha : a == root
    · refine ⟨0, ?_, ?_⟩
      · simp [List.findIdx?, ha]
      · simp [List.eraseIdx, List.erase_cons, ha]
    · have hmem : root ∈ t := by
        simp only [List.mem_cons] at h
        rcases h with h | h
        · exact absurd (by simp [h]) ha
        · exact h
      obtain ⟨j, h1, h2⟩ := ih hmem
      refine ⟨j + 1, ?_, ?_⟩
      · simp [List.findIdx?, ha, h1]
      · simp [List.eraseIdx, List.erase_cons, ha, h2]

theorem write_bktree_eq {α : Type} [DecidableEq α] (d : α → α → Nat) (root : α)
    (l : List α) (h : root ∈ l) :
    write_bktree d root l =
      some ((vecDedup (l.erase root)).foldl (fun t w => Node.add d t w) (Node.new root)) := by
  obtain ⟨i, h1, h2⟩ := findIdx_erase root l h
  unfold write_bktree
  rw [h1]
  show some ((vecDedup (l.eraseIdx i)).foldl (fun t w => Node.add d t w) (Node.new root)) = _
  rw [h2]

theorem vecDedupAux_eq {α : Type} [DecidableEq α] (l : List α) (p : α) :
    vecDedupAux p l =
      if (vecDedup l).head? = some p then (vecDedup l).tail else vecDedup l := by
  cases l with
  | nil => simp [vecDedupAux, vecDedup]
  | cons b t =>
    by_cases hpb : p = b
    · subst hpb
      simp [vecDedupAux, vecDedup]
    · rw [vecDedup]
      rw [if_neg (by simp [List.head?]; exact fun h => hpb h.symm)]
      simp [vecDedupAux, hpb, vecDedup]

theorem vecDedup_cons {α : Type} [DecidableEq α] (a : α) (m : List α) :
    vecDedup (a :: m) =
      if (vecDedup m).head? = some a then a :: (vecDedup m).tail
      else a :: vecDedup m := by
  rw [vecDedup, vecDedupAux_eq]
  split <;> rfl

theorem vecDedupAux_not_mem {α : Type} [DecidableEq α] (a : α) (m : List α)
    (h : a ∉ m) : vecDedupAux a m = vecDedup m := by
  cases m with
  | nil => rfl
  | cons c u =>
    have hac : a ≠ c := by
      intro hh
      exact h (by simp [hh])
    simp [vecDedupAux, vecDedup, hac]

theorem vecDedupAux_idem {α : Type} [DecidableEq α] :
    ∀ l : List α, ∀ p, vecDedupAux p (vecDedupAux p l) = vecDedupAux p l := by
  intro l
  induction l with
  | nil => intro p; rfl
  | cons b t ih =>
    intro p
    by_cases hpb : p = b
    · subst hpb
      simp only [vecDedupAux, if_pos rfl]
      exact ih p
    · simp only [vecDedupAux, if_neg hpb]
      rw [ih b]

theorem vecDedup_idem {α : Type} [DecidableEq α] (l : List α) :
    vecDedup (vecDedup l) = vecDedup l := by
  cases l with
  | nil => rfl
  | cons a t =>
    simp only [vecDedup]
    rw [vecDedupAux_idem]

theorem vecDedup_erase_comm {α : Type} [DecidableEq α] :
    ∀ l : List α, ∀ x, l.count x = 1 →
      vecDedup ((vecDedup l).erase x) = vecDedup (l.erase x) := by
  intro l
  induction l with
  | nil => intro x h; simp at h
  | cons a t ih =>
    intro x hc
    by_cases hxa : x = a
    · subst hxa
      have hxt : x ∉ t := by
        rw [List.count_cons_self] at hc
        exact List.count_eq_zero.mp (by omega)
      have h1 : (x :: t).erase x = t := by simp [List.erase_cons]
      have h2 : (vecDedup (x :: t)).erase x = vecDedupAux x t := by
        simp [vecDedup, List.erase_cons]
      rw [h1, h2, vecDedupAux_not_mem x t hxt, vecDedup_idem]
    · have hct : t.count x = 1 := by
        rw [List.count_cons_of_ne hxa] at hc
        exact hc
      have h1 : (a :: t).erase x = a :: t.erase x := by
        simp only [List.erase_cons]
        rw [if_neg (by simpa using fun h => hxa h.symm)]
      have h2 : (vecDedup (a :: t)).erase x = a :: (vecDedupAux a t).erase x := by
        simp only [vecDedup, List.erase_cons]
        rw [if_neg (by simpa using fun h => hxa h.symm)]
      rw [h1, h2]
      rw [vecDedupAux_eq t a]
      by_cases hh : (vecDedup t).head? = some a
      · rw [if_pos hh]
        have hcons : vecDedup t = a :: (vecDedup t).tail := (List.cons_head?_tail hh).symm
        have hiht := ih x hct
        rw [hcons] at hiht
        have herase : (a :: (vecDedup t).tail).erase x = a :: ((vecDedup t).tail).erase x := by
          simp only [List.erase_cons]
          rw [if_neg (by simpa using fun h => hxa h.symm)]
        rw [herase] at hiht
        rw [vecDedup_cons] at hiht
        rw [vecDedup_cons, vecDedup_cons, ← hiht]
        by_cases hu : (vecDedup (((vecDedup t).tail).erase x)).head? = some a
        · rw [if_pos hu]
          simp
        · rw [if_neg hu]
          simp
      · rw [if_neg hh]
        rw [vecDedup_cons, vecDedup_cons, ih x hct]

theorem vecDedupAux_filter {α : Type} [DecidableEq α] (a : α) :
    ∀ l : List α, ∀ p, a ∉ vecDedupAux p l →
      vecDedupAux p (l.filter (fun x => x != a)) = vecDedupAux p l := by
  intro l
  induction l with
  | nil => intro p _; rfl
  | cons b t ih =>
    intro p hmem
    by_cases hba : b = a
    · by_cases hpb : p = b
      · rw [hpb] at hmem ⊢
        have hmem2 : a ∉ vecDedupAux b t := by
          simpa [vecDedupAux] using hmem
        have hfil : (b :: t).filter (fun x => x != a) = t.filter (fun x => x != a) := by
          simp [List.filter_cons, hba]
        rw [hfil]
        rw [ih b hmem2]
        simp [vecDedupAux]
      · exfalso
        apply hmem
        simp only [vecDedupAux, if_neg hpb]
        rw [hba]
        exact List.mem_cons_self a _
    · have hfil : (b :: t).filter (fun x => x != a) = b :: t.filter (fun x => x != a) := by
        simp [List.filter_cons, bne_iff_ne.mpr hba]
      rw [hfil]
      by_cases hpb : p = b
      · subst hpb
        simp only [vecDedupAux, if_pos rfl] at hmem ⊢
        exact ih p hmem
      · simp only [vecDedupAux, if_neg hpb] at hmem ⊢
        simp only [List.mem_cons, not_or] at hmem
        rw [ih b hmem.2]

theorem dedupFull_eq_vecDedup_aux {α : Type} [DecidableEq α] :
    ∀ n : Nat, ∀ l : List α, l.length ≤ n → (vecDedup l).Nodup →
      dedupFull l = vecDedup l := by
  intro n
  induction n with
  | zero =>
    intro l hlen _
    have : l = [] := List.length_eq_zero.mp (by omega)
    subst this
    simp [dedupFull, vecDedup]
  | succ n ih =>
    intro l hlen hnd
    cases l with
    | nil => simp [dedupFull, vecDedup]
    | cons a t =>
      simp only [vecDedup, List.nodup_cons] at hnd
      have hfil : vecDedup (t.filter (fun x => x != a)) = vecDedupAux a t := by
        rw [← vecDedupAux_not_mem a (t.filter (fun x => x != a))
          (by simp [List.mem_filter])]
        exact vecDedupAux_filter a t a hnd.1
      rw [dedupFull]
      rw [ih (t.filter (fun x => x != a))
        (by
          have := t.length_filter_le (fun x => x != a)
          simp only [List.length_cons] at hlen
          omega)
        (by rw [hfil]; exact hnd.2)]
      rw [hfil, vecDedup]

theorem dedupFull_eq_vecDedup {α : Type} [DecidableEq α] (l : List α)
    (hnd : (vecDedup l).Nodup) : dedupFull l = vecDedup l :=
  dedupFull_eq_vecDedup_aux l.length l (Nat.le_refl _) hnd


/-- C1: the claim as stated is false on the code. The root word is itself a
word stored in the tree, at distance 0 from the query equal to it, yet
`canidates` never returns the current node's own word: on the tree built from
`["the"]`, `canidates("the", 0)` is empty. -/
theorem C1_counterexample :
    write_bktree levStr ROOT_WORD ["the"] = some (Node.new ROOT_WORD) ∧
    levStr "the" "the" ≤ 0 ∧
    "the" ∈ wordsIn (Node.new ROOT_WORD) ∧
    "the" ∉ Node.canidates levStr (Node.new ROOT_WORD) "the" 0 :=
  ⟨rfl, by decide, by decide, by decide⟩

/-- C1 amended: soundness of the candidate search for every *non-root* stored
word, for a metric that is symmetric and satisfies the triangle inequality,
provided the `u8` window arithmetic neither underflows nor overflows at any
node (`noWrapB`: `tolerance ≤ d(v.word, q)` and `d(v.word, q) + tolerance ≤ 255`
at every node `v`); under those conditions, `distance(q, w) ≤ tolerance`
implies `w ∈ canidates(q, tolerance)` on any tree the builder produces. -/
theorem C1_soundness_amended {α : Type} [DecidableEq α] (d : α → α → Nat) (root : α)
    (l : List α) (t : Node α) (q w : α) (tolerance : Nat)
    (hsym : ∀ a b, d a b = d b a)
    (htri : ∀ a b c, d a c ≤ d a b + d b c)
    (hbuild : write_bktree d root l = some t)
    (hnw : noWrapB d q tolerance t = true)
    (hw : w ∈ wordsInC t.children)
    (hd : d q w ≤ tolerance) :
    w ∈ Node.canidates d t q tolerance := by
  obtain ⟨hinv, hlen⟩ := write_bktree_inv d root l t hbuild
  exact canidates_complete_noWrap d hsym htri t q w tolerance hinv hlen hnw hw hd

/-- C1 witness: over `Fin 3` with the discrete metric, the tree built from
`[0, 1]` contains `1`, and the query `2` at tolerance 1 (at distance exactly 1
from every node word, so nothing wraps) returns it. -/
theorem C1_witness : (1 : Fin 3) ∈ Node.canidates dFin TC1 2 1 :=
  C1_soundness_amended dFin 0 [0, 1] TC1 2 1 1 (by decide) (by decide) rfl
    (by decide) (by decide) (by decide)

/-- C2: on the tree built from `["the", "them"]`, querying the root's own word
with tolerance 1 makes `distance - tolerance` underflow in `u8`
(`canidatesUnderflowB` is true: a debug build panics); under release-mode
wrapping the window becomes `[255, 1]` and the result is empty, although
`"them"` is at distance 1 and the spec's clamped window `[max(0, 0-1), 0+1]`
would return it. -/
theorem C2_bug_eval :
    write_bktree levStr ROOT_WORD ["the", "them"] = some T2b ∧
    levStr "the" "them" = 1 ∧
    canidatesUnderflowB levStr T2b "the" 1 = true ∧
    Node.canidates levStr T2b "the" 1 = [] ∧
    canidatesClamped levStr T2b "the" 1 = ["them"] :=
  ⟨rfl, by decide, rfl, rfl, rfl⟩

/-- C3: the claim as stated is false on the code: the root node's word is
stored in the tree built from `["the", "he"]`, but `canidates("the", 0)` does
not contain it — the search only ever pushes child words, never the current
node's own word. -/
theorem C3_counterexample :
    write_bktree levStr ROOT_WORD ["the", "he"] = some T3w ∧
    "the" ∈ wordsIn T3w ∧
    "the" ∉ Node.canidates levStr T3w "the" 0 :=
  ⟨rfl, by decide, by decide⟩

/-- C3 amended: exact self-match holds for every word stored at a *non-root*
node: on any tree the builder produces, `canidates(w, 0)` contains `w` for
every `w` stored below the root (no metric assumptions needed — the builder's
slot invariant pins every distance computed along the path to `w`). -/
theorem C3_selfmatch_amended {α : Type} [DecidableEq α] (d : α → α → Nat) (root : α)
    (l : List α) (t : Node α) (w : α)
    (hbuild : write_bktree d root l = some t)
    (hw : w ∈ wordsInC t.children) :
    w ∈ Node.canidates d t w 0 := by
  obtain ⟨hinv, hlen⟩ := write_bktree_inv d root l t hbuild
  exact canidates_complete_self d t w hinv hlen hw

/-- C3 witness: in the tree built from `["the", "he"]`, `canidates("he", 0)`
contains `"he"`. -/
theorem C3_witness : "he" ∈ Node.canidates levStr T3w "he" 0 :=
  C3_selfmatch_amended levStr ROOT_WORD ["the", "he"] T3w "he" rfl (by decide)

/-- C4: the claim as stated is false on the code. `"aaaaaaaaaaaaaaa"` is at
Levenshtein distance exactly 15 = `CHILDREN_LENGTH` from the root word;
construction neither fails nor reports anything — it succeeds and silently
returns the bare root, the word dropped without a trace (the builder's only
output is the tree; there is no warning channel). -/
theorem C4_counterexample :
    levStr "the" "aaaaaaaaaaaaaaa" = 15 ∧
    write_bktree levStr ROOT_WORD ["the", "aaaaaaaaaaaaaaa"] = some (Node.new ROOT_WORD) ∧
    "aaaaaaaaaaaaaaa" ∉ wordsIn (Node.new ROOT_WORD) :=
  ⟨by decide, rfl, by decide⟩

/-- C4 amended: the code's actual capacity policy: a word whose distance to
its insertion node is `≥ CHILDREN_LENGTH` is silently dropped — `add` returns
the tree unchanged and construction succeeds with no report. (The guard
`diff < CHILDREN_LENGTH` does mean no out-of-range access ever happens.) -/
theorem C4_policy_amended {α : Type} (d : α → α → Nat) (t : Node α) (w : α)
    (h : CHILDREN_LENGTH ≤ d t.word w) : Node.add d t w = t := by
  cases t with
  | mk w0 cs =>
    simp only [Node.word] at h
    simp [Node.add, Nat.not_lt.mpr h]

/-- C4 witness: adding the 15-distant word to the bare root changes nothing. -/
theorem C4_witness :
    Node.add levStr (Node.new ROOT_WORD) "aaaaaaaaaaaaaaa" = Node.new ROOT_WORD :=
  C4_policy_amended levStr (Node.new ROOT_WORD) "aaaaaaaaaaaaaaa" (by decide)

/-- C5: the claim as stated is false on the code: `Vec::dedup` removes only
*consecutive* duplicates, so building from `["the", "ab", "cd", "ab"]` inserts
`"ab"` twice (the second copy becomes a child of the first), while building
from the fully deduplicated list does not — the trees differ. -/
theorem C5_counterexample :
    write_bktree levStr ROOT_WORD ["the", "ab", "cd", "ab"] ≠
      write_bktree levStr ROOT_WORD (dedupFull ["the", "ab", "cd", "ab"]) := by
  have hd : dedupFull ["the", "ab", "cd", "ab"] = ["the", "ab", "cd"] := by
    simp [dedupFull]
  rw [hd]
  intro h
  exact absurd (congrArg (Option.map wordsIn) h) (by decide)

/-- C5 amended: the dedup identity holds when the input's repeated entries are
consecutive (`(vecDedup l).Nodup`: after collapsing adjacent runs no duplicate
is left) and the root word occurs exactly once: then building from the list
and from the fully deduplicated list yields the identical tree. -/
theorem C5_dedup_amended {α : Type} [DecidableEq α] (d : α → α → Nat) (root : α)
    (l : List α) (hcount : l.count root = 1) (hnd : (vecDedup l).Nodup) :
    write_bktree d root l = write_bktree d root (dedupFull l) := by
  have hmem : root ∈ l := by
    by_contra h
    rw [List.count_eq_zero.mpr h] at hcount
    exact absurd hcount (by omega)
  rw [dedupFull_eq_vecDedup l hnd]
  rw [write_bktree_eq d root l hmem]
  rw [write_bktree_eq d root (vecDedup l) (mem_vecDedup_of_mem l root hmem)]
  rw [vecDedup_erase_comm l root hcount]

/-- C5 witness: `["the", "ab", "ab", "cd"]` has only an adjacent duplicate and
one occurrence of the root word; building it equals building its full
deduplication. -/
theorem C5_witness :
    write_bktree levStr ROOT_WORD ["the", "ab", "ab", "cd"] =
      write_bktree levStr ROOT_WORD (dedupFull ["the", "ab", "ab", "cd"]) :=
  C5_dedup_amended levStr ROOT_WORD ["the", "ab", "ab", "cd"] (by decide) (by decide)

/-- C6: the claim as stated is false on the code: only the *first* occurrence
of the root word is removed from the input, so `["the", "the"]` builds a tree
with a second node carrying the root word (in slot 0 under the root). -/
theorem C6_counterexample :
    write_bktree levStr ROOT_WORD ["the", "the"] = some T6 ∧
    (wordsIn T6).count "the" = 2 :=
  ⟨rfl, by decide⟩

/-- C6 amended: root exclusion holds when the root word occurs exactly once in
the input list: the built tree then stores the root word at exactly one node
(the root itself). -/
theorem C6_root_amended {α : Type} [DecidableEq α] (d : α → α → Nat) (root : α)
    (l : List α) (t : Node α) (hbuild : write_bktree d root l = some t)
    (hcount : l.count root = 1) : (wordsIn t).count root = 1 := by
  have hmem : root ∈ l := by
    by_contra h
    rw [List.count_eq_zero.mpr h] at hcount
    exact absurd hcount (by omega)
  rw [write_bktree_eq d root l hmem] at hbuild
  injection hbuild with hb
  subst hb
  have hnotin : root ∉ vecDedup (l.erase root) := by
    intro hmem2
    have hm := mem_vecDedup _ _ hmem2
    have hcz : (l.erase root).count root = 0 := by
      rw [List.count_erase_self]
      omega
    exact absurd hm (List.count_eq_zero.mp hcz)
  rw [count_wordsIn_foldl d _ _ root (fun w hw he => hnotin (by rw [← he] at hw; exact hw))]
  rw [wordsIn_new]
  simp

/-- C6 witness: `["the", "ab"]` contains the root word once; the built tree
stores it exactly once. -/
theorem C6_witness : (wordsIn T6w).count ROOT_WORD = 1 :=
  C6_root_amended levStr ROOT_WORD ["the", "ab"] T6w rfl (by decide)

/-- C7: in every tree the builder produces, every occupied child slot `i` of
every node holds a child at distance exactly `i` from that node's word. -/
theorem C7_slot_distance {α : Type} [DecidableEq α] (d : α → α → Nat) (root : α)
    (l : List α) (t : Node α) (hbuild : write_bktree d root l = some t) :
    immediateSlotsOkB d t = true :=
  slotInv_imm d t (write_bktree_inv d root l t hbuild).1

/-- C7 witness: the slot-distance invariant, evaluated on the tree built from
`["the", "he"]`. -/
theorem C7_witness : immediateSlotsOkB levStr T7w = true :=
  C7_slot_distance levStr ROOT_WORD ["the", "he"] T7w rfl

/-- C8: the claim as stated is false on the code: on the tree with children
`"a"` (slot 0) and `"b"` (slot 1) under `"r"`, the iterator yields
`r, b, a` — child slots in *descending* index order — not the ascending-order
preorder `r, a, b` the claim requires. -/
theorem C8_counterexample :
    (iterTake 4 (Node.iter T8)).map Node.word = ["r", "b", "a"] ∧
    (preAsc T8).map Node.word = ["r", "a", "b"] :=
  ⟨rfl, rfl⟩

/-- C8 amended: the iterator is a pre-order depth-first traversal — each node
before any of its children — but it visits each node's occupied child slots in
*descending* index order (the `.rev()` in the source): any run of at least
`countNodes t` calls yields exactly `preDesc t`. -/
theorem C8_order_amended {α : Type} (t : Node α) (fuel : Nat)
    (hfuel : countNodes t ≤ fuel) :
    iterTake fuel (Node.iter t) = preDesc t :=
  iterTake_iter t fuel hfuel

/-- C8 witness: three calls on the two-child tree yield its descending-order
preorder. -/
theorem C8_witness : iterTake 3 (Node.iter T8) = preDesc T8 :=
  C8_order_amended T8 3 (by decide)

/-- C9: the claim as stated is false on the code: on a single-node tree, call 0
yields the root and call 1 returns `None`, but call 2 panics
(`stack.last().unwrap()` on the now-empty stack) instead of returning `None`. -/
theorem C9_counterexample :
    callAt 0 (Node.iter T9) = StepRes.yield T9 ⟨[(0, T9)], false⟩ ∧
    callAt 1 (Node.iter T9) = StepRes.done ⟨[], false⟩ ∧
    callAt 2 (Node.iter T9) = StepRes.panic :=
  ⟨rfl, rfl, rfl⟩

/-- C9 amended: a fresh iterator over a tree with N nodes yields exactly N
values, the first being the root; the call immediately after exhaustion
returns `None` (with an empty stack), but every later call panics rather than
returning `None`. -/
theorem C9_exhaustion_amended {α : Type} (t : Node α) :
    (iterTake (countNodes t) (Node.iter t)).length = countNodes t ∧
    (iterTake (countNodes t) (Node.iter t)).head? = some t ∧
    callAt (countNodes t) (Node.iter t) = StepRes.done ⟨[], false⟩ ∧
    (∀ k, callAt (countNodes t + k + 1) (Node.iter t) = StepRes.panic) := by
  have h1 : iterTake (countNodes t) (Node.iter t) = preDesc t :=
    iterTake_iter t (countNodes t) (Nat.le_refl _)
  refine ⟨?_, ?_, callAt_iter_done t, callAt_iter_after t⟩
  · rw [h1]
    exact preDesc_length t
  · rw [h1, preDesc_unfold]
    rfl

/-- C10: every word the candidate search returns is the word of a node stored
in the tree — the search never fabricates words, for any tree, query and
tolerance. -/
theorem C10_stored_only {α : Type} (d : α → α → Nat) (t : Node α) (q : α)
    (tolerance : Nat) (x : α) (hx : x ∈ Node.canidates d t q tolerance) :
    x ∈ wordsIn t :=
  canidates_subset_aux d t q tolerance x hx

/-- C10 witness: `"b"` returned by a concrete query is indeed stored. -/
theorem C10_witness : "b" ∈ wordsIn T10 :=
  C10_stored_only levStr T10 "b" 1 "b" (by decide)
